import Mathlib

/-!
Verification of the ES-FRMAE scripts: symbolic dRGT derivation
(`drgt_derivation.py`, `drgt_derivation_full.py`) and the gravitational-wave
dispersion computation (`gw_dispersion.py`).

The symbolic scripts manipulate 4x4 matrices whose entries are polynomials in
the bookkeeping symbol epsilon with coefficients in a commutative ring of
perturbation symbols; we embed them as `Matrix (Fin 4) (Fin 4) (Polynomial R)`.
The dispersion script's closed-form formulas are embedded over the reals with
the exact rational values of the scipy constants.
-/

open Polynomial Matrix

/-! ## gw_dispersion.py : constants and formulas -/

/-- Speed of light in m/s, `scipy.constants.c`, bound to `c_light` in the script. -/
noncomputable def c_light : ℝ := 299792458

/-- Planck constant in J·s, `scipy.constants.h`, bound to `h_planck`. -/
noncomputable def h_planck : ℝ := 6.62607015e-34

/-- Joules per eV, `scipy.constants.eV`, bound to `eV_to_J`. -/
noncomputable def eV_to_J : ℝ := 1.602176634e-19

/-- The clipped squared mass-to-energy ratio computed inside `group_velocity`:
`ratio_squared = (m_g_c2_J / E)**2` followed by `np.clip(ratio_squared, 0, 0.9999)`,
where `E = h_planck * f` and `m_g_c2_J = m_g_eV * eV_to_J`.
`np.clip(a, lo, hi)` is `minimum(maximum(a, lo), hi)`. -/
noncomputable def clipped_ratio (f m_g_eV : ℝ) : ℝ :=
  min (max ((m_g_eV * eV_to_J / (h_planck * f)) ^ 2) 0) 0.9999

/-- `group_velocity(f, m_g_eV)` from gw_dispersion.py:
`c_light * np.sqrt(1 - ratio_squared)` after clipping. -/
noncomputable def group_velocity (f m_g_eV : ℝ) : ℝ :=
  c_light * Real.sqrt (1 - clipped_ratio f m_g_eV)

/-- `time_delay(f, m_g_eV, D)` from gw_dispersion.py:
`(D / (2 * c_light)) * ratio**2` with `ratio = m_g_c2_J / E`, `E = h_planck * f`. -/
noncomputable def time_delay (f m_g_eV D : ℝ) : ℝ :=
  D / (2 * c_light) * (m_g_eV * eV_to_J / (h_planck * f)) ^ 2

lemma c_light_pos : 0 < c_light := by norm_num [c_light]

lemma h_planck_pos : 0 < h_planck := by norm_num [h_planck]

lemma eV_to_J_pos : 0 < eV_to_J := by norm_num [eV_to_J]

lemma clipped_ratio_mem (f m : ℝ) : 0 ≤ clipped_ratio f m ∧ clipped_ratio f m ≤ 0.9999 := by
  constructor
  · exact le_min (le_max_right _ _) (by norm_num)
  · exact min_le_right _ _

/-- C9: for every frequency f > 0 and graviton mass m ≥ 0, the clamping of the
squared mass-to-energy ratio to [0, 0.9999] keeps the square-root argument
`1 - clipped_ratio` inside [0.0001, 1], and the returned group velocity is a
real value between 0.01·c and c. -/
theorem group_velocity_bounded (f m_g_eV : ℝ) (hf : 0 < f) (hm : 0 ≤ m_g_eV) :
    (0.0001 ≤ 1 - clipped_ratio f m_g_eV ∧ 1 - clipped_ratio f m_g_eV ≤ 1) ∧
    0.01 * c_light ≤ group_velocity f m_g_eV ∧ group_velocity f m_g_eV ≤ c_light := by
  obtain ⟨h0, h1⟩ := clipped_ratio_mem f m_g_eV
  have harg : 0.0001 ≤ 1 - clipped_ratio f m_g_eV ∧ 1 - clipped_ratio f m_g_eV ≤ 1 :=
    ⟨by linarith, by linarith⟩
  refine ⟨harg, ?_, ?_⟩
  · have hs : (0.01 : ℝ) ≤ Real.sqrt (1 - clipped_ratio f m_g_eV) := by
      have h04 : Real.sqrt 0.0001 ≤ Real.sqrt (1 - clipped_ratio f m_g_eV) :=
        Real.sqrt_le_sqrt harg.1
      have : Real.sqrt 0.0001 = 0.01 := by
        rw [show (0.0001 : ℝ) = 0.01 ^ 2 by norm_num, Real.sqrt_sq (by norm_num)]
      linarith
    have := mul_le_mul_of_nonneg_left hs (le_of_lt c_light_pos)
    unfold group_velocity
    linarith [this]
  · have hs : Real.sqrt (1 - clipped_ratio f m_g_eV) ≤ 1 := Real.sqrt_le_one.mpr harg.2
    have := mul_le_mul_of_nonneg_left hs (le_of_lt c_light_pos)
    unfold group_velocity
    linarith [this]

/-- Witness for C9 at the concrete input f = 100 Hz, m = 0 eV. -/
theorem group_velocity_bounded_witness :
    (0 : ℝ) < 100 ∧ (0 : ℝ) ≤ 0 ∧
    ((0.0001 ≤ 1 - clipped_ratio 100 0 ∧ 1 - clipped_ratio 100 0 ≤ 1) ∧
      0.01 * c_light ≤ group_velocity 100 0 ∧ group_velocity 100 0 ≤ c_light) :=
  ⟨by norm_num, le_refl 0, group_velocity_bounded 100 0 (by norm_num) (le_refl 0)⟩

/-- C10: exact scaling laws of the closed-form time delay
Δt = D/(2c) · (m c² / (h f))², and strict monotonicity in frequency and mass. -/
theorem time_delay_scaling (f m D k : ℝ) (hf : 0 < f) (hm : 0 ≤ m) (hD : 0 ≤ D)
    (hk : 0 < k) :
    time_delay (k * f) m D = time_delay f m D / k ^ 2 ∧
    time_delay f (k * m) D = k ^ 2 * time_delay f m D ∧
    (0 < m → 0 < D → ∀ f2, f < f2 → time_delay f2 m D < time_delay f m D) ∧
    (0 < m → 0 < D → ∀ m2, m < m2 → time_delay f m D < time_delay f m2 D) := by
  have hc := c_light_pos
  have hh := h_planck_pos
  have he := eV_to_J_pos
  refine ⟨?_, ?_, ?_, ?_⟩
  · unfold time_delay
    rw [eq_div_iff (by positivity : (k : ℝ) ^ 2 ≠ 0)]
    field_simp
    ring
  · unfold time_delay
    field_simp
    ring
  · intro hm0 hD0 f2 hf2
    unfold time_delay
    have hf2' : 0 < f2 := hf.trans hf2
    have hD2c : 0 < D / (2 * c_light) := by positivity
    have hnum : 0 < m * eV_to_J := by positivity
    have hden1 : 0 < h_planck * f := by positivity
    have hlt : m * eV_to_J / (h_planck * f2) < m * eV_to_J / (h_planck * f) :=
      div_lt_div_of_pos_left hnum hden1 (mul_lt_mul_of_pos_left hf2 hh)
    have hfr2 : 0 ≤ m * eV_to_J / (h_planck * f2) := by positivity
    have := pow_lt_pow_left₀ hlt hfr2 (by norm_num : (2:ℕ) ≠ 0)
    exact mul_lt_mul_of_pos_left this hD2c
  · intro hm0 hD0 m2 hm2
    unfold time_delay
    have hD2c : 0 < D / (2 * c_light) := by positivity
    have hden1 : 0 < h_planck * f := by positivity
    have hlt : m * eV_to_J / (h_planck * f) < m2 * eV_to_J / (h_planck * f) :=
      div_lt_div_of_pos_right (mul_lt_mul_of_pos_right hm2 he) hden1
    have hfr : 0 ≤ m * eV_to_J / (h_planck * f) := by positivity
    have := pow_lt_pow_left₀ hlt hfr (by norm_num : (2:ℕ) ≠ 0)
    exact mul_lt_mul_of_pos_left this hD2c

/-- Witness for C10 at f = 1, m = 1, D = 1, k = 2. -/
theorem time_delay_scaling_witness :
    (0 : ℝ) < 1 ∧ (0 : ℝ) ≤ 1 ∧ (0 : ℝ) ≤ 1 ∧ (0 : ℝ) < 2 ∧
    (time_delay (2 * 1) 1 1 = time_delay 1 1 1 / 2 ^ 2 ∧
      time_delay 1 (2 * 1) 1 = 2 ^ 2 * time_delay 1 1 1 ∧
      ((0:ℝ) < 1 → (0:ℝ) < 1 → ∀ f2, 1 < f2 → time_delay f2 1 1 < time_delay 1 1 1) ∧
      ((0:ℝ) < 1 → (0:ℝ) < 1 → ∀ m2, 1 < m2 → time_delay 1 1 1 < time_delay 1 m2 1)) :=
  ⟨by norm_num, by norm_num, by norm_num, by norm_num,
    time_delay_scaling 1 1 1 2 (by norm_num) (by norm_num) (by norm_num) (by norm_num)⟩

/-! ## drgt_derivation.py / drgt_derivation_full.py : data model

The scripts build a symmetric 4x4 matrix of sympy symbols `h00 .. h33` scaled
by the bookkeeping symbol `epsilon`.  We embed the symbols as an arbitrary
assignment `a : Fin 4 → Fin 4 → R` into a commutative ring (taking `R` to be a
multivariate polynomial ring recovers the fully symbolic matrix), and `epsilon`
as `Polynomial.X`, so the matrix entries live in `Polynomial R`. -/

/-- The component matrix `h_comps` of drgt_derivation_full.py:
`h_comps[i][j] = symbols(h i j) if i <= j else symbols(h j i)`. -/
def h_comps {R : Type} [CommRing R] (a : Fin 4 → Fin 4 → R) : Matrix (Fin 4) (Fin 4) R :=
  Matrix.of fun i j => if i ≤ j then a i j else a j i

/-- The perturbation matrix `h = Matrix(h_comps) * eps` of drgt_derivation_full.py:
entrywise multiplication of the symbol matrix by epsilon. -/
noncomputable def h_pert {R : Type} [CommRing R] (a : Fin 4 → Fin 4 → R) :
    Matrix (Fin 4) (Fin 4) (Polynomial R) :=
  (h_comps a).map fun r => Polynomial.C r * Polynomial.X

/-- The perturbation matrix of drgt_derivation.py, written out as an explicit
4x4 literal with the symmetric placement of the ten symbols, times epsilon. -/
noncomputable def h_explicit {R : Type} [CommRing R] (a : Fin 4 → Fin 4 → R) :
    Matrix (Fin 4) (Fin 4) (Polynomial R) :=
  (!![a 0 0, a 0 1, a 0 2, a 0 3;
      a 0 1, a 1 1, a 1 2, a 1 3;
      a 0 2, a 1 2, a 2 2, a 2 3;
      a 0 3, a 1 3, a 2 3, a 3 3]).map fun r => Polynomial.C r * Polynomial.X

/-- The truncated Taylor series for the matrix square root used by
drgt_derivation.py: `sqrt_gS = I + (1/2)h - (1/8)h*h + (1/16)h*h*h`.
Stated in any ℚ-algebra, applied to 4x4 matrices below. -/
def sqrt_gS {A : Type} [Ring A] [Algebra ℚ A] (h : A) : A :=
  1 + (1/2 : ℚ) • h - (1/8 : ℚ) • (h * h) + (1/16 : ℚ) • (h * h * h)

/-- The quartic truncated series of drgt_derivation_full.py:
`sqrt_gS = I + (1/2)h - (1/8)h2 + (1/16)h3 - (5/128)h4`. -/
def sqrt_gS_full {A : Type} [Ring A] [Algebra ℚ A] (h : A) : A :=
  1 + (1/2 : ℚ) • h - (1/8 : ℚ) • (h * h) + (1/16 : ℚ) • (h * h * h)
    - (5/128 : ℚ) • (h * h * h * h)

/-! ## C1 : the diagonal Fierz-Pauli sanity check -/

/-- The test substitution of drgt_derivation.py: `h00=1, h11=2, h22=3, h33=4`,
all off-diagonal symbols 0. -/
def a_test : Fin 4 → Fin 4 → ℚ := fun i j => if i = j then (![1, 2, 3, 4] : Fin 4 → ℚ) i else 0

/-- The diagonal test matrix `h = diag(1,2,3,4)` of the verification step. -/
def h_test : Matrix (Fin 4) (Fin 4) ℚ := Matrix.diagonal ![1, 2, 3, 4]

/-- C1: for the diagonal test perturbation (epsilon = 1) the script's h
evaluates to diag(1,2,3,4), and Tr(h) = 10, Tr(h*h) = 30, and
Tr(h)^2 - Tr(h*h) = 70, the printed Fierz-Pauli sanity-check values. -/
theorem drgt_fierz_pauli_check :
    (h_pert a_test).map (Polynomial.eval 1) = h_test ∧
    Matrix.trace h_test = 10 ∧
    Matrix.trace (h_test * h_test) = 30 ∧
    (Matrix.trace h_test) ^ 2 - Matrix.trace (h_test * h_test) = 70 := by
  refine ⟨?_, ?_, ?_, ?_⟩
  · ext i j
    fin_cases i <;> fin_cases j <;>
      simp [h_pert, h_comps, a_test, h_test, Matrix.map_apply, Matrix.diagonal]
  · simp [h_test, Matrix.trace_diagonal, Fin.sum_univ_four]
    norm_num
  · simp [h_test, Matrix.diagonal_mul_diagonal, Matrix.trace_diagonal, Fin.sum_univ_four]
    norm_num
  · simp [h_test, Matrix.diagonal_mul_diagonal, Matrix.trace_diagonal, Fin.sum_univ_four]
    norm_num

/-! ## C3 : Newton-identity expressions for e1..e4 -/

/-- `e2 = (1/2)(tr_K**2 - tr_K2)` from both derivation scripts. -/
def e2_of (t1 t2 : ℚ) : ℚ := (1/2) * (t1 ^ 2 - t2)

/-- `e3 = (1/6)(tr_K**3 - 3 tr_K tr_K2 + 2 tr_K3)` from both derivation scripts. -/
def e3_of (t1 t2 t3 : ℚ) : ℚ := (1/6) * (t1 ^ 3 - 3 * t1 * t2 + 2 * t3)

/-- `e4 = (1/24)(tr_K**4 - 6 tr_K**2 tr_K2 + 3 tr_K2**2 + 8 tr_K tr_K3 - 6 tr_K4)`. -/
def e4_of (t1 t2 t3 t4 : ℚ) : ℚ :=
  (1/24) * (t1 ^ 4 - 6 * t1 ^ 2 * t2 + 3 * t2 ^ 2 + 8 * t1 * t3 - 6 * t4)

/-- First elementary symmetric polynomial of four eigenvalues. -/
def esym1 (l : Fin 4 → ℚ) : ℚ := l 0 + l 1 + l 2 + l 3

/-- Second elementary symmetric polynomial of four eigenvalues. -/
def esym2 (l : Fin 4 → ℚ) : ℚ :=
  l 0 * l 1 + l 0 * l 2 + l 0 * l 3 + l 1 * l 2 + l 1 * l 3 + l 2 * l 3

/-- Third elementary symmetric polynomial of four eigenvalues. -/
def esym3 (l : Fin 4 → ℚ) : ℚ :=
  l 0 * l 1 * l 2 + l 0 * l 1 * l 3 + l 0 * l 2 * l 3 + l 1 * l 2 * l 3

/-- Fourth elementary symmetric polynomial of four eigenvalues. -/
def esym4 (l : Fin 4 → ℚ) : ℚ := l 0 * l 1 * l 2 * l 3

/-- C3: if the traces of K, K*K, K*K*K, K*K*K*K are the power sums of the
eigenvalues l 0 .. l 3 (which is exactly what having eigenvalues l 0 .. l 3
means for traces), then the scripts' trace combinations compute the elementary
symmetric polynomials e1 .. e4 of the eigenvalues. -/
theorem newton_esymm_traces (K : Matrix (Fin 4) (Fin 4) ℚ) (l : Fin 4 → ℚ)
    (h1 : Matrix.trace K = l 0 + l 1 + l 2 + l 3)
    (h2 : Matrix.trace (K * K) = l 0 ^ 2 + l 1 ^ 2 + l 2 ^ 2 + l 3 ^ 2)
    (h3 : Matrix.trace (K * K * K) = l 0 ^ 3 + l 1 ^ 3 + l 2 ^ 3 + l 3 ^ 3)
    (h4 : Matrix.trace (K * K * K * K) = l 0 ^ 4 + l 1 ^ 4 + l 2 ^ 4 + l 3 ^ 4) :
    Matrix.trace K = esym1 l ∧
    e2_of (Matrix.trace K) (Matrix.trace (K * K)) = esym2 l ∧
    e3_of (Matrix.trace K) (Matrix.trace (K * K)) (Matrix.trace (K * K * K)) = esym3 l ∧
    e4_of (Matrix.trace K) (Matrix.trace (K * K)) (Matrix.trace (K * K * K))
      (Matrix.trace (K * K * K * K)) = esym4 l := by
  rw [h1, h2, h3, h4]
  refine ⟨?_, ?_, ?_, ?_⟩
  · unfold esym1; ring
  · unfold e2_of esym2; ring
  · unfold e3_of esym3; ring
  · unfold e4_of esym4; ring

/-- Witness for C3 at K = diag(1,2,3,4), l = (1,2,3,4). -/
theorem newton_esymm_traces_witness :
    (Matrix.trace (Matrix.diagonal ![1, 2, 3, 4] : Matrix (Fin 4) (Fin 4) ℚ) =
        ![1, 2, 3, 4] 0 + ![1, 2, 3, 4] 1 + ![(1:ℚ), 2, 3, 4] 2 + ![1, 2, 3, 4] 3) ∧
    (Matrix.trace (Matrix.diagonal ![1, 2, 3, 4] * Matrix.diagonal ![1, 2, 3, 4] :
        Matrix (Fin 4) (Fin 4) ℚ) =
        ![1, 2, 3, 4] 0 ^ 2 + ![1, 2, 3, 4] 1 ^ 2 + ![(1:ℚ), 2, 3, 4] 2 ^ 2 +
          ![1, 2, 3, 4] 3 ^ 2) ∧
    e2_of (Matrix.trace (Matrix.diagonal ![1, 2, 3, 4] : Matrix (Fin 4) (Fin 4) ℚ))
        (Matrix.trace (Matrix.diagonal ![1, 2, 3, 4] * Matrix.diagonal ![1, 2, 3, 4]))
      = esym2 ![1, 2, 3, 4] := by
  have h1 : Matrix.trace (Matrix.diagonal ![1, 2, 3, 4] : Matrix (Fin 4) (Fin 4) ℚ) =
      ![1, 2, 3, 4] 0 + ![1, 2, 3, 4] 1 + ![(1:ℚ), 2, 3, 4] 2 + ![1, 2, 3, 4] 3 := by
    simp [Matrix.trace_diagonal, Fin.sum_univ_four]
  have h2 : Matrix.trace (Matrix.diagonal ![1, 2, 3, 4] * Matrix.diagonal ![1, 2, 3, 4] :
      Matrix (Fin 4) (Fin 4) ℚ) =
      ![1, 2, 3, 4] 0 ^ 2 + ![1, 2, 3, 4] 1 ^ 2 + ![(1:ℚ), 2, 3, 4] 2 ^ 2 +
        ![1, 2, 3, 4] 3 ^ 2 := by
    simp [Matrix.diagonal_mul_diagonal, Matrix.trace_diagonal, Fin.sum_univ_four]
    norm_num
  have h3 : Matrix.trace (Matrix.diagonal ![1, 2, 3, 4] * Matrix.diagonal ![1, 2, 3, 4] *
      Matrix.diagonal ![1, 2, 3, 4] : Matrix (Fin 4) (Fin 4) ℚ) =
      ![1, 2, 3, 4] 0 ^ 3 + ![1, 2, 3, 4] 1 ^ 3 + ![(1:ℚ), 2, 3, 4] 2 ^ 3 +
        ![1, 2, 3, 4] 3 ^ 3 := by
    simp [Matrix.diagonal_mul_diagonal, Matrix.trace_diagonal, Fin.sum_univ_four]
    norm_num
  have h4 : Matrix.trace (Matrix.diagonal ![1, 2, 3, 4] * Matrix.diagonal ![1, 2, 3, 4] *
      Matrix.diagonal ![1, 2, 3, 4] * Matrix.diagonal ![1, 2, 3, 4] :
      Matrix (Fin 4) (Fin 4) ℚ) =
      ![1, 2, 3, 4] 0 ^ 4 + ![1, 2, 3, 4] 1 ^ 4 + ![(1:ℚ), 2, 3, 4] 2 ^ 4 +
        ![1, 2, 3, 4] 3 ^ 4 := by
    simp [Matrix.diagonal_mul_diagonal, Matrix.trace_diagonal, Fin.sum_univ_four]
    norm_num
  exact ⟨h1, h2, (newton_esymm_traces _ ![1, 2, 3, 4] h1 h2 h3 h4).2.1⟩

/-! ## C4 : apply_series_cutoff

`apply_series_cutoff(expr, eps, order)` runs
`expand(expr).subs([(eps**i, 0) for i in range(order+1, 10)])`.
On an expanded polynomial, sympy's `subs(eps**i, 0)` (i ≥ 1) rewrites a
monomial `c * eps**e` with `e ≥ i` as `c * 0**(e // i) * eps**(e % i) = 0`
and leaves monomials with `e < i` unchanged; so one substitution keeps exactly
the coefficients below the exponent `i`.  The list of substitutions is applied
sequentially (a left fold), and is empty when `order + 1 ≥ 10`. -/

/-- One sympy substitution `subs(eps**i, 0)` on an expanded polynomial:
keep the monomials of epsilon-degree below `i`, drop the rest. -/
noncomputable def subs_pow_zero {R : Type} [CommRing R] (i : ℕ) (p : Polynomial R) :
    Polynomial R :=
  ∑ k ∈ Finset.range i, Polynomial.C (p.coeff k) * Polynomial.X ^ k

/-- `apply_series_cutoff` of drgt_derivation.py (scalar branch, upper bound 10):
fold the substitutions `eps**i -> 0` for `i` in `range(order+1, 10)` over the
expanded expression. -/
noncomputable def apply_series_cutoff {R : Type} [CommRing R] (p : Polynomial R)
    (order : ℕ) : Polynomial R :=
  (List.range' (order + 1) (10 - (order + 1))).foldl (fun q i => subs_pow_zero i q) p

lemma coeff_subs_pow_zero {R : Type} [CommRing R] (i : ℕ) (p : Polynomial R) (k : ℕ) :
    (subs_pow_zero i p).coeff k = if k < i then p.coeff k else 0 := by
  rw [subs_pow_zero, Polynomial.finset_sum_coeff]
  simp only [Polynomial.coeff_C_mul, Polynomial.coeff_X_pow, mul_ite, mul_one, mul_zero]
  simp [Finset.sum_ite_eq, Finset.mem_range]

lemma subs_pow_zero_eq_self {R : Type} [CommRing R] {i : ℕ} {p : Polynomial R}
    (h : ∀ k, i ≤ k → p.coeff k = 0) : subs_pow_zero i p = p := by
  ext k
  rw [coeff_subs_pow_zero]
  split_ifs with hk
  · rfl
  · exact (h k (le_of_not_lt hk)).symm

lemma foldl_subs_pow_zero_eq_self {R : Type} [CommRing R] (l : List ℕ) (q : Polynomial R)
    (m : ℕ) (hq : ∀ k, m ≤ k → q.coeff k = 0) (hl : ∀ i ∈ l, m ≤ i) :
    l.foldl (fun r i => subs_pow_zero i r) q = q := by
  induction l with
  | nil => rfl
  | cons i t ih =>
      rw [List.foldl_cons,
        subs_pow_zero_eq_self (fun k hk => hq k (le_trans (hl i (by simp)) hk))]
      exact ih fun j hj => hl j (by simp [hj])

/-- For orders up to 8 the fold collapses to the single first substitution. -/
lemma apply_series_cutoff_eq {R : Type} [CommRing R] (p : Polynomial R) (order : ℕ)
    (h : order ≤ 8) : apply_series_cutoff p order = subs_pow_zero (order + 1) p := by
  unfold apply_series_cutoff
  have hlen : 10 - (order + 1) = (8 - order) + 1 := by omega
  rw [hlen, List.range'_succ, List.foldl_cons]
  apply foldl_subs_pow_zero_eq_self _ _ (order + 1)
  · intro k hk
    rw [coeff_subs_pow_zero, if_neg (by omega)]
  · intro i hi
    rw [List.mem_range'_1] at hi
    omega

/-- C4 counterexample: the truncation claim fails for orders at or above 9,
because the substitution list `range(order+1, 10)` is then empty.  At order 9
the input `eps^10` is returned unchanged, so a monomial of degree 10 > 9
survives. -/
theorem series_cutoff_claim_cex :
    ¬ ∀ (p : Polynomial ℚ) (n k : ℕ), n < k → (apply_series_cutoff p n).coeff k = 0 := by
  intro hcl
  have h10 : (apply_series_cutoff ((Polynomial.X : Polynomial ℚ) ^ 10) 9).coeff 10 = 1 := by
    unfold apply_series_cutoff
    simp [Polynomial.coeff_X_pow]
  have h0 := hcl (Polynomial.X ^ 10) 9 10 (by norm_num)
  rw [h0] at h10
  exact one_ne_zero h10.symm

/-- C4 (amended): for every polynomial expression and every order n up to 8
(the substitution list stops at exponent 9), apply_series_cutoff keeps no
monomial of epsilon-degree above n and leaves every monomial of degree at most
n unchanged. -/
theorem series_cutoff_truncates {R : Type} [CommRing R] (p : Polynomial R) (n : ℕ)
    (hn : n ≤ 8) :
    (∀ k, n < k → (apply_series_cutoff p n).coeff k = 0) ∧
    (∀ k, k ≤ n → (apply_series_cutoff p n).coeff k = p.coeff k) := by
  rw [apply_series_cutoff_eq p n hn]
  constructor
  · intro k hk
    rw [coeff_subs_pow_zero, if_neg (by omega)]
  · intro k hk
    rw [coeff_subs_pow_zero, if_pos (by omega)]

/-- Witness for the amended C4 at the input eps^5 + 3 eps^2, order 2. -/
theorem series_cutoff_truncates_witness :
    (2 : ℕ) ≤ 8 ∧
    (apply_series_cutoff ((Polynomial.X : Polynomial ℚ) ^ 5 +
        Polynomial.C 3 * Polynomial.X ^ 2) 2).coeff 5 = 0 ∧
    (apply_series_cutoff ((Polynomial.X : Polynomial ℚ) ^ 5 +
        Polynomial.C 3 * Polynomial.X ^ 2) 2).coeff 2 =
      ((Polynomial.X : Polynomial ℚ) ^ 5 + Polynomial.C 3 * Polynomial.X ^ 2).coeff 2 :=
  ⟨by norm_num,
    (series_cutoff_truncates _ 2 (by norm_num)).1 5 (by norm_num),
    (series_cutoff_truncates _ 2 (by norm_num)).2 2 (le_refl 2)⟩

/-! ## C2 : correctness of the truncated square-root series -/

/-- C2: squaring the cubic series S3 gives I + h plus an explicit remainder
that is a multiple of h^4 (so only terms of total degree at least 4), and
squaring the quartic series S4 gives I + h plus a multiple of h^5 (degree at
least 5); each truncation is a square root of I + h to its stated order. -/
theorem sqrt_series_truncation_order {A : Type} [CommRing A] [Algebra ℚ A]
    (h : Matrix (Fin 4) (Fin 4) A) :
    sqrt_gS h * sqrt_gS h =
      1 + h + h * h * h * h *
        ((5/64 : ℚ) • 1 - (1/64 : ℚ) • h + (1/256 : ℚ) • (h * h)) ∧
    sqrt_gS_full h * sqrt_gS_full h =
      1 + h + h * h * h * h * h *
        ((-7/128 : ℚ) • 1 + (7/512 : ℚ) • h - (5/1024 : ℚ) • (h * h) +
          (25/16384 : ℚ) • (h * h * h)) := by
  constructor <;>
    · simp only [sqrt_gS, sqrt_gS_full]
      simp only [mul_add, add_mul, mul_sub, sub_mul, smul_mul_assoc, mul_smul_comm, smul_smul,
        mul_one, one_mul, mul_assoc]
      module

/-! ## C5 / C6 : the derived matrices K and their structure -/

/-- Entrywise series cutoff, the `applyfunc` branch of `apply_series_cutoff`
(upper bound 10 in both scripts). -/
noncomputable def apply_series_cutoff_mat {R : Type} [CommRing R]
    (M : Matrix (Fin 4) (Fin 4) (Polynomial R)) (order : ℕ) :
    Matrix (Fin 4) (Fin 4) (Polynomial R) :=
  M.map fun p => apply_series_cutoff p order

/-- `K = apply_series_cutoff(I - sqrt_gS, eps, 2)` of drgt_derivation.py,
built from that script's explicit perturbation matrix. -/
noncomputable def K_mat {R : Type} [CommRing R] [Algebra ℚ R] (a : Fin 4 → Fin 4 → R) :
    Matrix (Fin 4) (Fin 4) (Polynomial R) :=
  apply_series_cutoff_mat (1 - sqrt_gS (h_explicit a)) 2

/-- `K = apply_series_cutoff(I - sqrt_gS, eps, 4)` of drgt_derivation_full.py. -/
noncomputable def K_mat_full {R : Type} [CommRing R] [Algebra ℚ R] (a : Fin 4 → Fin 4 → R) :
    Matrix (Fin 4) (Fin 4) (Polynomial R) :=
  apply_series_cutoff_mat (1 - sqrt_gS_full (h_pert a)) 4

lemma h_comps_transpose {R : Type} [CommRing R] (a : Fin 4 → Fin 4 → R) :
    (h_comps a)ᵀ = h_comps a := by
  ext i j
  simp only [Matrix.transpose_apply, h_comps, Matrix.of_apply]
  rcases le_or_lt i j with h1 | h1
  · rcases eq_or_lt_of_le h1 with rfl | hlt
    · simp
    · rw [if_neg (not_le.mpr hlt), if_pos h1]
  · rw [if_pos h1.le, if_neg (not_le.mpr h1)]

lemma h_pert_transpose {R : Type} [CommRing R] (a : Fin 4 → Fin 4 → R) :
    (h_pert a)ᵀ = h_pert a := by
  unfold h_pert
  rw [← Matrix.transpose_map, h_comps_transpose]

lemma h_explicit_eq {R : Type} [CommRing R] (a : Fin 4 → Fin 4 → R) :
    h_explicit a = h_pert a := by
  ext i j
  fin_cases i <;> fin_cases j <;>
    simp [h_explicit, h_pert, h_comps, Matrix.map_apply]

/-- Entrywise description of a product of two matrices whose entries are
single monomials in epsilon. -/
lemma mul_entry_monomial {R : Type} [CommRing R] {p q : ℕ}
    {M N : Matrix (Fin 4) (Fin 4) R} {P Q : Matrix (Fin 4) (Fin 4) (Polynomial R)}
    (hP : ∀ i j, P i j = Polynomial.C (M i j) * Polynomial.X ^ p)
    (hQ : ∀ i j, Q i j = Polynomial.C (N i j) * Polynomial.X ^ q) :
    ∀ i j, (P * Q) i j = Polynomial.C ((M * N) i j) * Polynomial.X ^ (p + q) := by
  intro i j
  simp only [Matrix.mul_apply, hP, hQ]
  rw [map_sum, Finset.sum_mul]
  refine Finset.sum_congr rfl fun x _ => ?_
  rw [Polynomial.C_mul, pow_add]
  ring

lemma h_pert_apply {R : Type} [CommRing R] (a : Fin 4 → Fin 4 → R) :
    ∀ i j, h_pert a i j = Polynomial.C (h_comps a i j) * Polynomial.X ^ 1 := by
  intro i j
  simp [h_pert, Matrix.map_apply]

lemma h_pert_sq_apply {R : Type} [CommRing R] (a : Fin 4 → Fin 4 → R) :
    ∀ i j, (h_pert a * h_pert a) i j =
      Polynomial.C ((h_comps a * h_comps a) i j) * Polynomial.X ^ (1 + 1) :=
  mul_entry_monomial (h_pert_apply a) (h_pert_apply a)

lemma h_pert_cube_apply {R : Type} [CommRing R] (a : Fin 4 → Fin 4 → R) :
    ∀ i j, (h_pert a * h_pert a * h_pert a) i j =
      Polynomial.C ((h_comps a * h_comps a * h_comps a) i j) *
        Polynomial.X ^ (1 + 1 + 1) :=
  mul_entry_monomial (h_pert_sq_apply a) (h_pert_apply a)

lemma h_pert_four_apply {R : Type} [CommRing R] (a : Fin 4 → Fin 4 → R) :
    ∀ i j, (h_pert a * h_pert a * h_pert a * h_pert a) i j =
      Polynomial.C ((h_comps a * h_comps a * h_comps a * h_comps a) i j) *
        Polynomial.X ^ (1 + 1 + 1 + 1) :=
  mul_entry_monomial (h_pert_cube_apply a) (h_pert_apply a)

lemma subs_pow_zero_add {R : Type} [CommRing R] (i : ℕ) (p q : Polynomial R) :
    subs_pow_zero i (p + q) = subs_pow_zero i p + subs_pow_zero i q := by
  ext k
  simp only [coeff_subs_pow_zero, Polynomial.coeff_add]
  split_ifs <;> simp

lemma subs_pow_zero_smul_rat {R : Type} [CommRing R] [Algebra ℚ R] (i : ℕ) (c : ℚ)
    (p : Polynomial R) : subs_pow_zero i (c • p) = c • subs_pow_zero i p := by
  ext k
  simp only [coeff_subs_pow_zero, Polynomial.coeff_smul]
  split_ifs <;> simp

lemma subs_pow_zero_monomial {R : Type} [CommRing R] (i m : ℕ) (r : R) :
    subs_pow_zero i (Polynomial.C r * Polynomial.X ^ m) =
      if m < i then Polynomial.C r * Polynomial.X ^ m else 0 := by
  ext k
  rw [coeff_subs_pow_zero]
  by_cases hmi : m < i
  · rw [if_pos hmi]
    split_ifs with hk
    · rfl
    · rw [Polynomial.coeff_C_mul, Polynomial.coeff_X_pow, if_neg (by omega : ¬ k = m),
        mul_zero]
  · rw [if_neg hmi, Polynomial.coeff_zero]
    split_ifs with hk
    · rw [Polynomial.coeff_C_mul, Polynomial.coeff_X_pow, if_neg (by omega : ¬ k = m),
        mul_zero]
    · rfl

lemma subs_pow_zero_comp {R : Type} [CommRing R] (i j : ℕ) (hij : i ≤ j)
    (p : Polynomial R) : subs_pow_zero i (subs_pow_zero j p) = subs_pow_zero i p := by
  ext k
  simp only [coeff_subs_pow_zero]
  split_ifs with h1 h2
  · rfl
  · omega
  · rfl

lemma sqrt_gS_transpose {A : Type} [CommRing A] [Algebra ℚ A]
    (M : Matrix (Fin 4) (Fin 4) A) (hM : Mᵀ = M) : (sqrt_gS M)ᵀ = sqrt_gS M := by
  simp only [sqrt_gS, Matrix.transpose_add, Matrix.transpose_sub, Matrix.transpose_smul,
    Matrix.transpose_one, Matrix.transpose_mul, hM, mul_assoc]

lemma sqrt_gS_full_transpose {A : Type} [CommRing A] [Algebra ℚ A]
    (M : Matrix (Fin 4) (Fin 4) A) (hM : Mᵀ = M) :
    (sqrt_gS_full M)ᵀ = sqrt_gS_full M := by
  simp only [sqrt_gS_full, Matrix.transpose_add, Matrix.transpose_sub, Matrix.transpose_smul,
    Matrix.transpose_one, Matrix.transpose_mul, hM, mul_assoc]

lemma apply_series_cutoff_mat_transpose {R : Type} [CommRing R]
    (M : Matrix (Fin 4) (Fin 4) (Polynomial R)) (o : ℕ) :
    (apply_series_cutoff_mat M o)ᵀ = apply_series_cutoff_mat Mᵀ o :=
  (Matrix.transpose_map).symm

/-- C5: the perturbation matrix built by both scripts is symmetric, and
symmetry is preserved through the whole derivation: every power of h, both
truncated square-root series, both K matrices and every power of K are
symmetric. -/
theorem perturbation_symmetry_preserved {R : Type} [CommRing R] [Algebra ℚ R]
    (a : Fin 4 → Fin 4 → R) :
    (h_explicit a)ᵀ = h_explicit a ∧
    (h_pert a)ᵀ = h_pert a ∧
    (∀ n, ((h_pert a) ^ n)ᵀ = (h_pert a) ^ n) ∧
    (sqrt_gS (h_pert a))ᵀ = sqrt_gS (h_pert a) ∧
    (sqrt_gS_full (h_pert a))ᵀ = sqrt_gS_full (h_pert a) ∧
    (K_mat a)ᵀ = K_mat a ∧
    (K_mat_full a)ᵀ = K_mat_full a ∧
    (∀ n, ((K_mat a) ^ n)ᵀ = (K_mat a) ^ n) ∧
    (∀ n, ((K_mat_full a) ^ n)ᵀ = (K_mat_full a) ^ n) := by
  have hp := h_pert_transpose a
  have hx : (h_explicit a)ᵀ = h_explicit a := by rw [h_explicit_eq a]; exact hp
  have hK : (K_mat a)ᵀ = K_mat a := by
    unfold K_mat
    rw [apply_series_cutoff_mat_transpose, Matrix.transpose_sub, Matrix.transpose_one,
      sqrt_gS_transpose _ hx]
  have hKf : (K_mat_full a)ᵀ = K_mat_full a := by
    unfold K_mat_full
    rw [apply_series_cutoff_mat_transpose, Matrix.transpose_sub, Matrix.transpose_one,
      sqrt_gS_full_transpose _ hp]
  exact ⟨hx, hp, fun n => by rw [Matrix.transpose_pow, hp], sqrt_gS_transpose _ hp,
    sqrt_gS_full_transpose _ hp, hK, hKf, fun n => by rw [Matrix.transpose_pow, hK],
    fun n => by rw [Matrix.transpose_pow, hKf]⟩

/-- C6: the two scripts build the same symbolic perturbation matrix, the
quartic square-root series differs from the cubic one exactly by the
(5/128) h^4 term (so they agree on all terms through h^3), and truncating the
full script's K at order 2 in epsilon gives exactly the K of
drgt_derivation.py. -/
theorem full_script_refines_base {R : Type} [CommRing R] [Algebra ℚ R]
    (a : Fin 4 → Fin 4 → R) :
    h_explicit a = h_pert a ∧
    sqrt_gS_full (h_pert a) =
      sqrt_gS (h_pert a) -
        (5/128 : ℚ) • (h_pert a * h_pert a * h_pert a * h_pert a) ∧
    apply_series_cutoff_mat (K_mat_full a) 2 = K_mat a := by
  refine ⟨h_explicit_eq a, rfl, ?_⟩
  unfold K_mat K_mat_full apply_series_cutoff_mat
  rw [h_explicit_eq a]
  ext i j
  simp only [Matrix.map_apply]
  rw [apply_series_cutoff_eq _ 4 (by norm_num), apply_series_cutoff_eq _ 2 (by norm_num),
    apply_series_cutoff_eq _ 2 (by norm_num), subs_pow_zero_comp 3 5 (by norm_num)]
  have hsplit : (1 - sqrt_gS_full (h_pert a)) i j =
      (1 - sqrt_gS (h_pert a)) i j +
        (5 / 128 : ℚ) • ((h_pert a * h_pert a * h_pert a * h_pert a) i j) := by
    have hm : (1 : Matrix (Fin 4) (Fin 4) (Polynomial R)) - sqrt_gS_full (h_pert a) =
        (1 - sqrt_gS (h_pert a)) +
          (5 / 128 : ℚ) • (h_pert a * h_pert a * h_pert a * h_pert a) := by
      simp only [sqrt_gS, sqrt_gS_full]
      abel
    rw [hm, Matrix.add_apply, Matrix.smul_apply]
  rw [hsplit, subs_pow_zero_add, subs_pow_zero_smul_rat, h_pert_four_apply,
    subs_pow_zero_monomial, if_neg (by norm_num), smul_zero, add_zero]
